import Mathlib

/-!
# Verification of `codebase_to_docx`

A shallow embedding of `src/vinzy_codebase_to_docx/codebase_to_docx.py`
(class `CodebaseConverter` and its helpers) together with proofs about it.

Modelling conventions:

* A filesystem path is a `List String` of components.  `CodebaseConverter`'s
  `codebase_path` (the result of `Path(...).resolve()`, an absolute POSIX
  path) is the list of components after the root anchor `/`; e.g.
  `/home/user/proj` is `["home", "user", "proj"]`.  `str()` of such a path
  prepends `/` and joins with `/`; `Path.parents` of `/a/b/c` is
  `/a/b`, `/a`, `/`, whose `.name`s are `b`, `a`, `""`.
* The directory tree *under* the codebase root is an `Entry` forest
  (`List Entry`); sibling order stands in for the arbitrary enumeration
  order of `os.scandir` that `os.walk` exposes.
* Reading a file (`open(...,'r',encoding='utf-8',errors='ignore')` followed
  by `.read()`) either yields decoded text (`Except.ok`) or fails with an
  `OSError` whose message is `str(e)` (`Except.error`).  The permissive
  decoding never raises, so decoding is folded into the stored `ok` text.
* The `python-docx` document is a `List Block`: headings, styled paragraphs
  and page breaks, in the order the `doc.add_*` calls occur.  `doc.save`
  is modelled by `convert` returning `Except.ok (output_path, blocks)`;
  a raised exception is `Except.error`.  The one-time mutation of the
  `Normal` style (Calibri 11) is a document-global constant and is omitted
  from the block list.  The optional `progress_callback` is a pure
  notification with no effect on the document, so it is not modelled.
* Python `set`s are modelled as `List`s used only through membership.
-/

namespace CodebaseToDocx

/-! ## Strings: code-point order and ASCII lowering

CPython compares strings code point by code point, and `tuple` comparison
(the comparison `sorted` uses on `Path` objects, which compare their
component tuples) is lexicographic.  We implement both as executable
`Bool`-valued functions because the corresponding Mathlib `String` order
does not reduce inside the kernel. -/

/-- Lowering of a string, char by char.  Models CPython `str.lower` on the
strings this program compares (ASCII extension strings); `Char.toLower`
lowers exactly `A`–`Z`. -/
def lowerStr (s : String) : String := String.mk (s.data.map Char.toLower)

/-- Strict comparison of two characters by code point, as CPython does. -/
def charLtB (a b : Char) : Bool := decide (a < b)

/-- Generic lexicographic strict order on lists, given a strict order on
elements: the order CPython uses for both `str` (over code points) and
`tuple` (over components). -/
def lexLt (lt : α → α → Bool) [DecidableEq α] : List α → List α → Bool
  | [], [] => false
  | [], _ :: _ => true
  | _ :: _, [] => false
  | a :: as, b :: bs => if lt a b then true else if a = b then lexLt lt as bs else false

/-- CPython string comparison `s < t`: lexicographic by code point. -/
def strLt (s t : String) : Bool := lexLt charLtB s.data t.data

/-- CPython `Path` comparison `p < q`: lexicographic over the component
tuple, each component compared as a string. -/
def pathLt : List String → List String → Bool := lexLt strLt

/-- Non-strict path order, the order `sorted` establishes on the result. -/
def pathLe (p q : List String) : Bool := pathLt p q || p == q

/-- Path order as a relation, for `List.insertionSort` and `List.Sorted`. -/
def pathLeP (p q : List String) : Prop := pathLe p q = true

instance pathLeP.decRel : DecidableRel pathLeP :=
  fun p q => inferInstanceAs (Decidable (pathLe p q = true))

/-! ## `pathlib.PurePath.suffix`

CPython (`pathlib`): `i = name.rfind('.'); return name[i:] if 0 < i <
len(name) - 1 else ''`.  So `a.PY ↦ .PY`, `.gitignore ↦ ""`, `a. ↦ ""`,
`a ↦ ""`. -/

/-- Index of the last `.` in a character list (CPython `str.rfind('.')`,
with `none` for `-1`). -/
def rfindDotAux : List Char → Nat → Option Nat → Option Nat
  | [], _, acc => acc
  | c :: cs, i, acc => rfindDotAux cs (i + 1) (if c = '.' then some i else acc)

/-- Index of the last `.` of a character list, if any. -/
def rfindDot (cs : List Char) : Option Nat := rfindDotAux cs 0 none

/-- The extension of a file name, with the leading dot, as
`pathlib.PurePath.suffix` computes it from the last path component. -/
def pathSuffix (name : String) : String :=
  match rfindDot name.data with
  | none => ""
  | some i =>
    if 0 < i && i < name.data.length - 1 then String.mk (name.data.drop i) else ""

/-- Last component of a path (`Path.name`; `""` for the root `/`). -/
def lastName (p : List String) : String := (p.getLast?).getD ""

/-- Names of all the ancestors of a path, i.e. `[q.name for q in
p.parents]`: for `/a/b/c` these are `b`, `a` and `""` (the anchor `/`). -/
def parentNames (p : List String) : List String := p.dropLast.reverse ++ [""]

/-- Components of a path joined by `/`, as `str()` renders a relative
POSIX path (every path rendered by the program is nonempty). -/
def joinSep (sep : String) : List String → String
  | [] => ""
  | [s] => s
  | s :: rest => s ++ sep ++ joinSep sep rest

/-- Rendering of an absolute POSIX path. -/
def absStr (p : List String) : String := "/" ++ joinSep "/" p

/-! ## The converter configuration -/

/-- The class attribute `CodebaseConverter.CODE_EXTENSIONS`. -/
def CODE_EXTENSIONS : List String :=
  [".py", ".js", ".jsx", ".ts", ".tsx", ".java", ".cpp", ".c", ".h",
   ".cs", ".rb", ".go", ".rs", ".php", ".swift", ".kt", ".scala",
   ".html", ".css", ".scss", ".sass", ".less", ".xml", ".json",
   ".yaml", ".yml", ".md", ".txt", ".sh", ".bash", ".sql", ".r"]

/-- The class attribute `CodebaseConverter.IGNORE_DIRS`. -/
def IGNORE_DIRS : List String :=
  ["__pycache__", "node_modules", ".git", ".venv", "venv",
   "env", "build", "dist", ".idea", ".vscode", "target",
   ".gradle", "bin", "obj", "coverage"]

/-- The state a `CodebaseConverter` instance holds after `__init__`. -/
structure CodebaseConverter where
  codebase_path : List String
  output_path : String
  include_file_paths : Bool
  include_toc : Bool
  ignore_dirs : List String
  include_extensions : List String

/-- `CodebaseConverter.__init__` (path validation aside, which concerns the
real filesystem): `self.ignore_dirs = IGNORE_DIRS.copy()`, then
`if ignore_dirs: self.ignore_dirs.update(ignore_dirs)` — a `None` or empty
argument is falsy, so defaults are kept unchanged; a nonempty argument is
unioned in.  `self.include_extensions = include_extensions or
CODE_EXTENSIONS` — again a `None` or *empty* argument is falsy and yields
the defaults, a nonempty argument replaces them. -/
def CodebaseConverter.init (codebase_path : List String) (output_path : String)
    (include_file_paths include_toc : Bool)
    (ignore_dirs : Option (List String))
    (include_extensions : Option (List String)) : CodebaseConverter where
  codebase_path := codebase_path
  output_path := output_path
  include_file_paths := include_file_paths
  include_toc := include_toc
  ignore_dirs :=
    match ignore_dirs with
    | none => IGNORE_DIRS
    | some l => if l.isEmpty then IGNORE_DIRS else IGNORE_DIRS ++ l
  include_extensions :=
    match include_extensions with
    | none => CODE_EXTENSIONS
    | some l => if l.isEmpty then CODE_EXTENSIONS else l

/-! ## The directory tree and file discovery -/

/-- Result of reading a file: its decoded text, or the message of the
`OSError` the read raised. -/
abbrev FileData := Except String String

/-- A directory entry: a file with its (readable or not) content, or a
subdirectory with its children. -/
inductive Entry where
  | file (name : String) (data : FileData)
  | dir (name : String) (children : List Entry)

/-- Name of a directory entry. -/
def entryName : Entry → String
  | .file n _ => n
  | .dir n _ => n

/-- `CodebaseConverter._should_include_file`, on the absolute path of a
candidate file: first the extension check
(`file_path.suffix.lower() not in self.include_extensions`), then the
ancestor check (`for parent in file_path.parents: if parent.name in
self.ignore_dirs: return False`). -/
def should_include_file (cv : CodebaseConverter) (p : List String) : Bool :=
  if lowerStr (pathSuffix (lastName p)) ∉ cv.include_extensions then false
  else if (parentNames p).any (fun d => decide (d ∈ cv.ignore_dirs)) then false
  else true

mutual
/-- The contribution of one directory entry to the `os.walk` loop of
`CodebaseConverter._get_files`, given the absolute path of the directory
that contains it: a file contributes itself if `_should_include_file`
admits it; a subdirectory whose bare name is in `ignore_dirs` is pruned
from the walk (`dirs[:] = [d for d in dirs if d not in self.ignore_dirs]`),
any other subdirectory contributes its own walk. -/
def walkE (cv : CodebaseConverter) (path : List String) : Entry → List (List String)
  | .file n _ =>
    if should_include_file cv (path ++ [n]) then [path ++ [n]] else []
  | .dir n cs =>
    if entryName (.dir n cs) ∈ cv.ignore_dirs then []
    else walkF cv (path ++ [n]) cs
/-- The files collected by `os.walk` from the children of one directory. -/
def walkF (cv : CodebaseConverter) (path : List String) : List Entry → List (List String)
  | [] => []
  | e :: es => walkE cv path e ++ walkF cv path es
end

/-- `CodebaseConverter._get_files`: collect every file under
`codebase_path` that survives pruning and `_should_include_file`, and
return `sorted(files)` — ascending in the `Path` order `pathLeP`.
(`os.walk` yields a directory's files before its subtrees; the pre-sort
enumeration order is irrelevant to the sorted result.) -/
def get_files (cv : CodebaseConverter) (tree : List Entry) : List (List String) :=
  List.insertionSort pathLeP (walkF cv cv.codebase_path tree)

/-- First entry with the given name among a directory's children
(filesystem name resolution; a real directory never holds two entries with
one name). -/
def findEntry (n : String) : List Entry → Option Entry
  | [] => none
  | e :: es => if entryName e = n then some e else findEntry n es

/-- Resolution of a path (relative to the forest) to the data of the file
it names, as `open(file_path, 'r')` does; any resolution failure is an
`OSError` and surfaces as an `Except.error`. -/
def readFile (es : List Entry) : List String → FileData
  | [] => .error "No such file or directory"
  | n :: rest =>
    match findEntry n es with
    | none => .error "No such file or directory"
    | some (.file _ d) => if rest.isEmpty then d else .error "Not a directory"
    | some (.dir _ cs) =>
      match rest with
      | [] => .error "Is a directory"
      | _ => readFile cs rest

/-! ## Document assembly -/

/-- Character formatting applied to the single run of a paragraph. -/
structure RunStyle where
  fontName : Option String
  fontSize : Option Nat
  fontColor : Option (Nat × Nat × Nat)
  italic : Bool
deriving DecidableEq

/-- An unstyled run (document default). -/
def plainStyle : RunStyle := ⟨none, none, none, false⟩

/-- The `Location:` line: `Pt(9)`, `RGBColor(128,128,128)`, italic. -/
def locationStyle : RunStyle := ⟨none, some 9, some (128, 128, 128), true⟩

/-- A file body: `Courier New` at `Pt(9)`. -/
def codeStyle : RunStyle := ⟨some "Courier New", some 9, none, false⟩

/-- The in-document read-error marker: `RGBColor(255,0,0)`. -/
def errorStyle : RunStyle := ⟨none, none, some (255, 0, 0), false⟩

/-- A table-of-contents entry: `Pt(10)`, style `List Bullet`. -/
def tocStyle : RunStyle := ⟨none, some 10, none, false⟩

/-- One element of the assembled document, in `doc.add_*` call order.
`bullet` records the `List Bullet` paragraph style used for TOC entries. -/
inductive Block where
  | heading (level : Nat) (text : String) (centered : Bool)
  | par (text : String) (style : RunStyle) (bullet : Bool)
  | pageBreak
deriving DecidableEq

/-- Path of a file relative to the codebase root, rendered as
`str(file_path.relative_to(self.codebase_path))`. -/
def relStr (cv : CodebaseConverter) (p : List String) : String :=
  joinSep "/" (p.drop cv.codebase_path.length)

/-- `CodebaseConverter._add_title` plus the two calls that follow it in
`convert`: the centered level-0 heading, the file count and a page break. -/
def titleBlocks (cv : CodebaseConverter) (files : List (List String)) : List Block :=
  [Block.heading 0 ("Codebase: " ++ lastName cv.codebase_path) true,
   Block.par ("Total files: " ++ toString files.length) plainStyle false,
   Block.pageBreak]

/-- `CodebaseConverter._add_table_of_contents`: a heading, one `List
Bullet` paragraph per file (run size `Pt(10)`) in discovery order, then a
page break. -/
def tocBlocks (cv : CodebaseConverter) (files : List (List String)) : List Block :=
  Block.heading 1 "Table of Contents" false
    :: files.map (fun p => Block.par (relStr cv p) tocStyle true)
    ++ [Block.pageBreak]

/-- `CodebaseConverter._add_file_content`: the level-1 heading with the
relative path; if `include_file_paths`, the de-emphasized `Location:`
line; then the file body — its text in `codeStyle` if the read succeeds,
or the red `Error reading file: ...` marker if it raises — and a trailing
empty spacer paragraph. -/
def add_file_content (cv : CodebaseConverter) (tree : List Entry)
    (p : List String) : List Block :=
  [Block.heading 1 (relStr cv p) false]
  ++ (if cv.include_file_paths then
        [Block.par ("Location: " ++ absStr p) locationStyle false]
      else [])
  ++ (match readFile tree (p.drop cv.codebase_path.length) with
      | .ok content => [Block.par content codeStyle false]
      | .error e => [Block.par ("Error reading file: " ++ e) errorStyle false])
  ++ [Block.par "" plainStyle false]

/-- The per-file loop of `convert`: each file's section, with a page break
between consecutive sections (`if idx < len(files)`) and none after the
last. -/
def bodyBlocks (cv : CodebaseConverter) (tree : List Entry) :
    List (List String) → List Block
  | [] => []
  | [p] => add_file_content cv tree p
  | p :: ps => add_file_content cv tree p ++ Block.pageBreak :: bodyBlocks cv tree ps

/-- The whole assembled document: title block, the table of contents when
enabled, then the per-file sections. -/
def docBlocks (cv : CodebaseConverter) (tree : List Entry)
    (files : List (List String)) : List Block :=
  titleBlocks cv files
  ++ (if cv.include_toc then tocBlocks cv files else [])
  ++ bodyBlocks cv tree files

/-- `CodebaseConverter.convert`: discover the files, raise
`ValueError("No files found to convert!")` if there are none (before any
document object exists), otherwise assemble the document, save it at
`output_path` and return that path.  `Except.ok` carries the returned
path and the saved document; `Except.error` carries the raised message. -/
def convert (cv : CodebaseConverter) (tree : List Entry) :
    Except String (String × List Block) :=
  let files := get_files cv tree
  if files.isEmpty then Except.error "No files found to convert!"
  else Except.ok (cv.output_path, docBlocks cv tree files)

/-! ## Filesystem well-formedness and enumeration reordering

A real directory never contains two entries with the same name; `wfF`
states that invariant for a forest.  `RForest t t'` says the two forests
describe the same directory tree, with children possibly enumerated in a
different order — the nondeterminism `os.walk` actually exposes between
two runs over the same tree. -/

mutual
/-- Well-formedness of an entry: every directory it contains has
pairwise-distinct child names. -/
def wfE : Entry → Bool
  | .file _ _ => true
  | .dir _ cs => wfF cs
/-- Well-formedness of a forest: the top-level names are pairwise distinct
and every entry is well-formed. -/
def wfF : List Entry → Bool
  | [] => true
  | e :: es => wfE e && !(decide (entryName e ∈ es.map entryName)) && wfF es
end

/-- Two forests describe the same directory tree, with the children of
every directory (at any depth) possibly enumerated in a different order:
the congruence closure of adjacent transposition.  This is the only
run-to-run variation `os.walk` exposes over one unchanged tree. -/
inductive RF : List Entry → List Entry → Prop
  | nil : RF [] []
  | consFile {l l' : List Entry} (n : String) (d : FileData) :
      RF l l' → RF (.file n d :: l) (.file n d :: l')
  | consDir {cs cs' l l' : List Entry} (n : String) :
      RF cs cs' → RF l l' → RF (.dir n cs :: l) (.dir n cs' :: l')
  | swap (e₁ e₂ : Entry) (l : List Entry) :
      RF (e₁ :: e₂ :: l) (e₂ :: e₁ :: l)
  | trans {l₁ l₂ l₃ : List Entry} : RF l₁ l₂ → RF l₂ l₃ → RF l₁ l₃

/-! ## Properties of the path order -/

theorem lexLt_irrefl (lt : α → α → Bool) [DecidableEq α]
    (hirr : ∀ a, lt a a = false) : ∀ l, lexLt lt l l = false
  | [] => rfl
  | a :: as => by simp [lexLt, hirr a, lexLt_irrefl lt hirr as]

theorem lexLt_trans (lt : α → α → Bool) [DecidableEq α]
    (htr : ∀ a b c, lt a b = true → lt b c = true → lt a c = true) :
    ∀ l₁ l₂ l₃, lexLt lt l₁ l₂ = true → lexLt lt l₂ l₃ = true →
      lexLt lt l₁ l₃ = true
  | [], [], _, h₁, _ => by simp [lexLt] at h₁
  | [], _ :: _, [], _, h₂ => by simp [lexLt] at h₂
  | [], _ :: _, _ :: _, _, _ => rfl
  | _ :: _, [], _, h₁, _ => by simp [lexLt] at h₁
  | _ :: _, _ :: _, [], _, h₂ => by simp [lexLt] at h₂
  | a :: as, b :: bs, c :: cs, h₁, h₂ => by
    simp only [lexLt] at h₁ h₂ ⊢
    by_cases hab : lt a b = true
    · by_cases hbc : lt b c = true
      · simp [htr a b c hab hbc]
      · rw [if_neg (by simp [hbc])] at h₂
        by_cases hbceq : b = c
        · subst hbceq; simp [hab]
        · simp [hbceq] at h₂
    · rw [if_neg (by simp [hab])] at h₁
      by_cases habeq : a = b
      · subst habeq
        by_cases hbc : lt a c = true
        · simp [hbc]
        · rw [if_neg (by simp [hbc])] at h₂ ⊢
          by_cases hbceq : a = c
          · subst hbceq
            simp only [if_pos rfl] at h₁ h₂ ⊢
            exact lexLt_trans lt htr as bs cs (by simpa using h₁) (by simpa using h₂)
          · simp [hbceq] at h₂
      · simp [habeq] at h₁

theorem lexLt_conn (lt : α → α → Bool) [DecidableEq α]
    (hconn : ∀ a b, lt a b = false → lt b a = false → a = b) :
    ∀ l₁ l₂, lexLt lt l₁ l₂ = false → lexLt lt l₂ l₁ = false → l₁ = l₂
  | [], [], _, _ => rfl
  | [], _ :: _, h₁, _ => by simp [lexLt] at h₁
  | _ :: _, [], _, h₂ => by simp [lexLt] at h₂
  | a :: as, b :: bs, h₁, h₂ => by
    have hab : lt a b = false := by
      by_contra h
      simp only [Bool.not_eq_false] at h
      simp [lexLt, h] at h₁
    have hba : lt b a = false := by
      by_contra h
      simp only [Bool.not_eq_false] at h
      simp [lexLt, h] at h₂
    have heq : a = b := hconn a b hab hba
    subst heq
    simp only [lexLt, hab, if_neg, Bool.false_eq_true, if_true, if_pos rfl] at h₁ h₂
    rw [lexLt_conn lt hconn as bs (by simpa using h₁) (by simpa using h₂)]

theorem charLtB_irrefl (a : Char) : charLtB a a = false := by
  simp [charLtB]

theorem charLtB_trans (a b c : Char) (h₁ : charLtB a b = true)
    (h₂ : charLtB b c = true) : charLtB a c = true := by
  simp only [charLtB, decide_eq_true_iff] at h₁ h₂ ⊢
  exact lt_trans h₁ h₂

theorem charLtB_conn (a b : Char) (h₁ : charLtB a b = false)
    (h₂ : charLtB b a = false) : a = b := by
  simp only [charLtB, decide_eq_false_iff_not, not_lt] at h₁ h₂
  exact le_antisymm h₂ h₁

theorem strLt_irrefl (s : String) : strLt s s = false :=
  lexLt_irrefl charLtB charLtB_irrefl s.data

theorem strLt_trans (s t u : String) (h₁ : strLt s t = true)
    (h₂ : strLt t u = true) : strLt s u = true :=
  lexLt_trans charLtB charLtB_trans s.data t.data u.data h₁ h₂

theorem strLt_conn (s t : String) (h₁ : strLt s t = false)
    (h₂ : strLt t s = false) : s = t := by
  cases s with
  | mk d₁ =>
    cases t with
    | mk d₂ =>
      rw [lexLt_conn charLtB charLtB_conn d₁ d₂ h₁ h₂]

theorem pathLt_irrefl (p : List String) : pathLt p p = false :=
  lexLt_irrefl strLt strLt_irrefl p

theorem pathLt_trans (p q r : List String) (h₁ : pathLt p q = true)
    (h₂ : pathLt q r = true) : pathLt p r = true :=
  lexLt_trans strLt strLt_trans p q r h₁ h₂

theorem pathLt_conn (p q : List String) (h₁ : pathLt p q = false)
    (h₂ : pathLt q p = false) : p = q :=
  lexLt_conn strLt strLt_conn p q h₁ h₂

theorem pathLeP_total (p q : List String) : pathLeP p q ∨ pathLeP q p := by
  unfold pathLeP pathLe
  by_cases h₁ : pathLt p q = true
  · left; simp [h₁]
  · by_cases h₂ : pathLt q p = true
    · right; simp [h₂]
    · left
      have := pathLt_conn p q (by simpa using h₁) (by simpa using h₂)
      subst this
      simp

theorem pathLeP_trans (p q r : List String) (h₁ : pathLeP p q)
    (h₂ : pathLeP q r) : pathLeP p r := by
  unfold pathLeP pathLe at h₁ h₂ ⊢
  simp only [Bool.or_eq_true, beq_iff_eq] at h₁ h₂ ⊢
  rcases h₁ with h₁ | h₁
  · rcases h₂ with h₂ | h₂
    · exact Or.inl (pathLt_trans p q r h₁ h₂)
    · subst h₂; exact Or.inl h₁
  · subst h₁; exact h₂

theorem pathLeP_antisymm (p q : List String) (h₁ : pathLeP p q)
    (h₂ : pathLeP q p) : p = q := by
  unfold pathLeP pathLe at h₁ h₂
  simp only [Bool.or_eq_true, beq_iff_eq] at h₁ h₂
  rcases h₁ with h₁ | h₁
  · rcases h₂ with h₂ | h₂
    · have := pathLt_trans p q p h₁ h₂
      rw [pathLt_irrefl p] at this
      exact absurd this (by simp)
    · exact h₂.symm
  · exact h₁

/-! ## Discovery lemmas -/

/-- Characterisation of `_should_include_file`: a file passes iff its
lower-cased suffix is an included extension and no ancestor directory name
is ignored. -/
theorem should_include_iff (cv : CodebaseConverter) (p : List String) :
    should_include_file cv p = true ↔
      (lowerStr (pathSuffix (lastName p)) ∈ cv.include_extensions ∧
       ∀ d ∈ parentNames p, d ∉ cv.ignore_dirs) := by
  unfold should_include_file
  split
  · next h => simp only [Bool.false_eq_true, false_iff]
              intro hc
              exact h hc.1
  · next h =>
    split
    · next h₂ =>
      simp only [Bool.false_eq_true, false_iff]
      intro hc
      simp only [List.any_eq_true, decide_eq_true_iff] at h₂
      obtain ⟨d, hd, hmem⟩ := h₂
      exact hc.2 d hd hmem
    · next h₂ =>
      simp only [true_iff]
      refine ⟨by simpa using h, ?_⟩
      intro d hd hmem
      exact h₂ (by simp only [List.any_eq_true, decide_eq_true_iff]; exact ⟨d, hd, hmem⟩)

mutual
theorem walkE_mem_include (cv : CodebaseConverter) (path : List String)
    (e : Entry) : ∀ q ∈ walkE cv path e, should_include_file cv q = true := by
  match e with
  | .file n d =>
    intro q hq
    unfold walkE at hq
    split at hq
    · next h => rw [List.mem_singleton] at hq; rw [hq]; exact h
    · simp at hq
  | .dir n cs =>
    intro q hq
    unfold walkE at hq
    split at hq
    · simp at hq
    · exact walkF_mem_include cv (path ++ [n]) cs q hq
theorem walkF_mem_include (cv : CodebaseConverter) (path : List String)
    (es : List Entry) : ∀ q ∈ walkF cv path es, should_include_file cv q = true := by
  match es with
  | [] => intro q hq; simp [walkF] at hq
  | e :: es' =>
    intro q hq
    unfold walkF at hq
    rw [List.mem_append] at hq
    rcases hq with h | h
    · exact walkE_mem_include cv path e q h
    · exact walkF_mem_include cv path es' q h
end

mutual
theorem walkE_prefix (cv : CodebaseConverter) (path : List String)
    (e : Entry) : ∀ q ∈ walkE cv path e, path ++ [entryName e] <+: q := by
  match e with
  | .file n d =>
    intro q hq
    unfold walkE at hq
    split at hq
    · rw [List.mem_singleton] at hq
      rw [hq]
      exact List.prefix_rfl
    · simp at hq
  | .dir n cs =>
    intro q hq
    unfold walkE at hq
    split at hq
    · simp at hq
    · obtain ⟨x, hx⟩ := walkF_prefix cv (path ++ [n]) cs q hq
      exact (List.prefix_append (path ++ [n]) [x]).trans hx
theorem walkF_prefix (cv : CodebaseConverter) (path : List String)
    (es : List Entry) : ∀ q ∈ walkF cv path es, ∃ x, path ++ [x] <+: q := by
  match es with
  | [] => intro q hq; simp [walkF] at hq
  | e :: es' =>
    intro q hq
    unfold walkF at hq
    rw [List.mem_append] at hq
    rcases hq with h | h
    · exact ⟨entryName e, walkE_prefix cv path e q h⟩
    · exact walkF_prefix cv path es' q h
end

/-- A member of the walk of a forest is a member of the walk of one of its
entries. -/
theorem walkF_mem_cases (cv : CodebaseConverter) (path : List String) :
    ∀ (es : List Entry), ∀ q ∈ walkF cv path es, ∃ e ∈ es, q ∈ walkE cv path e
  | [], q, hq => by simp [walkF] at hq
  | e :: es', q, hq => by
    unfold walkF at hq
    rw [List.mem_append] at hq
    rcases hq with h | h
    · exact ⟨e, List.mem_cons_self e es', h⟩
    · obtain ⟨e', he', h'⟩ := walkF_mem_cases cv path es' q h
      exact ⟨e', List.mem_cons_of_mem e he', h'⟩

/-- Every path produced by discovery is a path `_should_include_file`
admitted (via the permutation produced by `sorted`). -/
theorem get_files_mem_include (cv : CodebaseConverter) (tree : List Entry)
    (p : List String) (hp : p ∈ get_files cv tree) :
    should_include_file cv p = true := by
  unfold get_files at hp
  rw [(List.perm_insertionSort pathLeP (walkF cv cv.codebase_path tree)).mem_iff] at hp
  exact walkF_mem_include cv cv.codebase_path tree p hp

/-! ## Duplicate-freedom of the walk -/

mutual
theorem walkE_nodup (cv : CodebaseConverter) (path : List String) (e : Entry)
    (h : wfE e = true) : (walkE cv path e).Nodup := by
  match e with
  | .file n d =>
    unfold walkE
    split
    · exact List.nodup_singleton _
    · exact List.nodup_nil
  | .dir n cs =>
    unfold walkE
    split
    · exact List.nodup_nil
    · exact walkF_nodup cv (path ++ [n]) cs (by simpa [wfE] using h)
theorem walkF_nodup (cv : CodebaseConverter) (path : List String)
    (es : List Entry) (h : wfF es = true) : (walkF cv path es).Nodup := by
  match es with
  | [] => unfold walkF; exact List.nodup_nil
  | e :: es' =>
    unfold wfF at h
    simp only [Bool.and_eq_true, Bool.not_eq_true', decide_eq_false_iff_not] at h
    obtain ⟨⟨he, hname⟩, hes⟩ := h
    unfold walkF
    refine List.Nodup.append (walkE_nodup cv path e he)
      (walkF_nodup cv path es' hes) ?_
    rw [List.disjoint_left]
    intro q hq₁ hq₂
    obtain ⟨t₁, ht₁⟩ := walkE_prefix cv path e q hq₁
    obtain ⟨e', he', hq₂'⟩ := walkF_mem_cases cv path es' q hq₂
    obtain ⟨t₂, ht₂⟩ := walkE_prefix cv path e' q hq₂'
    rw [← ht₂] at ht₁
    rw [List.append_assoc, List.append_assoc] at ht₁
    have hcancel := List.append_cancel_left ht₁
    have hne : entryName e = entryName e' := by
      simpa using congrArg (fun l => l.head?) hcancel
    exact hname (by rw [hne]; exact List.mem_map_of_mem entryName he')
end

/-! ## Example inputs used by the witnesses -/

/-- A converter built with all-default options over `/home/proj`. -/
def sampleCv : CodebaseConverter :=
  CodebaseConverter.init ["home", "proj"] "codebase.docx" true true none none

/-- A small well-formed tree: two admitted files, one of them nested, one
file with a non-included extension, and an ignored directory with a file
under it. -/
def sampleTree : List Entry :=
  [Entry.file "b.py" (.ok "y=2"),
   Entry.dir "node_modules" [Entry.file "m.py" (.ok "n")],
   Entry.dir "src" [Entry.file "a.py" (.ok "x=1"), Entry.file "notes.xyz" (.ok "no")],
   Entry.file "noext" (.ok "z")]

/-! ## The claims -/

/-- C1: every path discovery returns has no ancestor directory (at any
depth, up to and including the filesystem root) whose bare name is in the
ignored set; contrapositively, a file with such an ancestor is excluded
from the result of `_get_files`. -/
theorem get_files_excludes_ignored_ancestors (cv : CodebaseConverter)
    (tree : List Entry) (p : List String) (hp : p ∈ get_files cv tree) :
    ∀ d ∈ parentNames p, d ∉ cv.ignore_dirs :=
  ((should_include_iff cv p).mp (get_files_mem_include cv tree p hp)).2

/-- Witness for C1 at a concrete discovery result. -/
theorem get_files_excludes_ignored_ancestors_witness :
    ["home", "proj", "src", "a.py"] ∈ get_files sampleCv sampleTree ∧
    ∀ d ∈ parentNames ["home", "proj", "src", "a.py"], d ∉ sampleCv.ignore_dirs :=
  ⟨by decide,
   get_files_excludes_ignored_ancestors sampleCv sampleTree _ (by decide)⟩

/-- C2: over a well-formed directory tree (no directory holds two entries
with one name — the filesystem invariant) discovery returns a list that
is sorted ascending in the lexicographic path order `pathLeP` and holds
no duplicate entries. -/
theorem get_files_sorted_nodup (cv : CodebaseConverter) (tree : List Entry)
    (h : wfF tree = true) :
    List.Sorted pathLeP (get_files cv tree) ∧ (get_files cv tree).Nodup := by
  constructor
  · exact @List.sorted_insertionSort _ pathLeP pathLeP.decRel
      ⟨pathLeP_total⟩ ⟨pathLeP_trans⟩ _
  · exact (List.perm_insertionSort pathLeP
      (walkF cv cv.codebase_path tree)).symm.nodup
      (walkF_nodup cv cv.codebase_path tree h)

/-- Witness for C2 at a concrete tree. -/
theorem get_files_sorted_nodup_witness :
    wfF sampleTree = true ∧
    (List.Sorted pathLeP (get_files sampleCv sampleTree) ∧
     (get_files sampleCv sampleTree).Nodup) :=
  ⟨by decide, get_files_sorted_nodup sampleCv sampleTree (by decide)⟩

/-- C10: if any component of the resolved codebase path itself — the root
directory's base name or the name of any directory above it — is in the
ignored set, the per-file ancestor check rejects every file: discovery
returns the empty list and `convert` always raises the no-files-found
error. -/
theorem ignored_root_empties_discovery (cv : CodebaseConverter)
    (tree : List Entry) (hd : ∃ d ∈ cv.codebase_path, d ∈ cv.ignore_dirs) :
    get_files cv tree = [] ∧
    convert cv tree = Except.error "No files found to convert!" := by
  obtain ⟨d, hdm, hdi⟩ := hd
  have hw : walkF cv cv.codebase_path tree = [] := by
    rw [List.eq_nil_iff_forall_not_mem]
    intro q hq
    have hinc := walkF_mem_include cv cv.codebase_path tree q hq
    obtain ⟨x, t, ht⟩ := walkF_prefix cv cv.codebase_path tree q hq
    have hq_eq : q = cv.codebase_path ++ ([x] ++ t) := by
      rw [← ht, List.append_assoc]
    have hdrop : q.dropLast = cv.codebase_path ++ ([x] ++ t).dropLast := by
      rw [hq_eq]
      exact List.dropLast_append_of_ne_nil _ (by simp)
    have hdpn : d ∈ parentNames q := by
      unfold parentNames
      refine List.mem_append_left _ (List.mem_reverse.mpr ?_)
      rw [hdrop]
      exact List.mem_append_left _ hdm
    exact ((should_include_iff cv q).mp hinc).2 d hdpn hdi
  have hg : get_files cv tree = [] := by
    unfold get_files
    rw [hw]
    rfl
  exact ⟨hg, by simp [convert, hg]⟩

/-- Witness for C10: the codebase root lives under a directory named
`node_modules`, so nothing is discovered even though an admissible file
exists. -/
theorem ignored_root_empties_discovery_witness :
    (∃ d ∈ (CodebaseConverter.init ["home", "node_modules", "proj"]
        "codebase.docx" true true none none).codebase_path,
      d ∈ (CodebaseConverter.init ["home", "node_modules", "proj"]
        "codebase.docx" true true none none).ignore_dirs) ∧
    (get_files (CodebaseConverter.init ["home", "node_modules", "proj"]
        "codebase.docx" true true none none) [Entry.file "a.py" (.ok "x=1")] = [] ∧
     convert (CodebaseConverter.init ["home", "node_modules", "proj"]
        "codebase.docx" true true none none) [Entry.file "a.py" (.ok "x=1")] =
       Except.error "No files found to convert!") :=
  ⟨by decide,
   ignored_root_empties_discovery _ [Entry.file "a.py" (.ok "x=1")] (by decide)⟩

/-- C3: the extension filter of `_should_include_file` is case-insensitive
and admits a file exactly when its suffix, lower-cased and with its
leading dot, is in the configured include set: the full predicate is the
conjunction of that membership with the ignored-ancestor check, and in
particular `FOO.PY` passes when `.py` is the configured extension. -/
theorem extension_match_case_insensitive :
    (∀ (cv : CodebaseConverter) (p : List String),
      should_include_file cv p = true ↔
        (lowerStr (pathSuffix (lastName p)) ∈ cv.include_extensions ∧
         ∀ d ∈ parentNames p, d ∉ cv.ignore_dirs)) ∧
    should_include_file
      (CodebaseConverter.init ["proj"] "codebase.docx" true true none
        (some [".py"]))
      ["proj", "FOO.PY"] = true :=
  ⟨should_include_iff, by decide⟩

/-- C5: when discovery finds no file, `convert` raises the empty-result
`ValueError` right after discovery — before any document object is built —
and nothing is saved (no `Except.ok`, which is what carries a save). -/
theorem convert_no_files_error (cv : CodebaseConverter) (tree : List Entry)
    (h : get_files cv tree = []) :
    convert cv tree = Except.error "No files found to convert!" := by
  simp [convert, h]

/-- Witness for C5 over an empty directory. -/
theorem convert_no_files_error_witness :
    get_files sampleCv [] = [] ∧
    convert sampleCv [] = Except.error "No files found to convert!" :=
  ⟨rfl, convert_no_files_error sampleCv [] rfl⟩

/-- C6 counterexample: with the override `set()` (empty but provided), the
effective included-extension set is *not* the override — the falsy check
`include_extensions or CODE_EXTENSIONS` silently falls back to the
defaults, so `.py` is effective although the override excludes it. -/
theorem include_extensions_override_cex :
    ¬ (∀ x : String,
        x ∈ (CodebaseConverter.init ["proj"] "codebase.docx" true true none
          (some [])).include_extensions ↔ x ∈ ([] : List String)) := by
  intro h
  have h2 := (h ".py").mp (by decide)
  simp at h2

/-- C6 amended: the effective included-extension set equals the
user-supplied override whenever a *nonempty* override is provided (the
defaults are not merged in), and equals the built-in defaults when the
override is absent — or empty, which the falsy test treats as absent. -/
theorem include_extensions_override_amended (cp : List String) (op : String)
    (fp toc : Bool) (ig : Option (List String)) (l : List String) :
    (l ≠ [] →
      (CodebaseConverter.init cp op fp toc ig (some l)).include_extensions = l) ∧
    (CodebaseConverter.init cp op fp toc ig none).include_extensions
      = CODE_EXTENSIONS ∧
    (CodebaseConverter.init cp op fp toc ig (some [])).include_extensions
      = CODE_EXTENSIONS := by
  refine ⟨?_, rfl, rfl⟩
  intro hl
  simp [CodebaseConverter.init, List.isEmpty_iff, hl]

/-- Witness for C6 (amended) at a nonempty override. -/
theorem include_extensions_override_amended_witness :
    ([".py"] : List String) ≠ [] ∧
    (CodebaseConverter.init ["proj"] "codebase.docx" true true none
      (some [".py"])).include_extensions = [".py"] :=
  ⟨by decide,
   (include_extensions_override_amended ["proj"] "codebase.docx" true true
     none [".py"]).1 (by decide)⟩

/-- C7: the effective ignored-directory set is always the union of the
built-in defaults and the user-supplied additions — additions never
replace the defaults. -/
theorem ignore_dirs_is_union (cp : List String) (op : String) (fp toc : Bool)
    (ig : Option (List String)) (ie : Option (List String)) (x : String) :
    x ∈ (CodebaseConverter.init cp op fp toc ig ie).ignore_dirs ↔
      x ∈ IGNORE_DIRS ∨ x ∈ ig.getD [] := by
  cases ig with
  | none => simp [CodebaseConverter.init]
  | some l =>
    by_cases hl : l.isEmpty
    · have h0 : l = [] := by simpa [List.isEmpty_iff] using hl
      subst h0
      simp [CodebaseConverter.init]
    · simp [CodebaseConverter.init, hl, List.mem_append]

/-! ## Extracting the TOC and the body headings from the document -/

/-- Texts of the `List Bullet` paragraphs of a block list — exactly the
TOC entries, since only `_add_table_of_contents` uses that style. -/
def tocEntryTexts (bs : List Block) : List String :=
  bs.filterMap fun b =>
    match b with
    | .par t _ true => some t
    | _ => none

/-- Texts of the level-1 headings of a block list — on the body, exactly
the per-file section headings. -/
def heading1Texts (bs : List Block) : List String :=
  bs.filterMap fun b =>
    match b with
    | .heading 1 t _ => some t
    | _ => none

theorem tocEntryTexts_tocBlocks (cv : CodebaseConverter)
    (files : List (List String)) :
    tocEntryTexts (tocBlocks cv files) = files.map (relStr cv) := by
  unfold tocBlocks
  show tocEntryTexts
      (files.map (fun p => Block.par (relStr cv p) tocStyle true)
        ++ [Block.pageBreak])
    = files.map (relStr cv)
  induction files with
  | nil => rfl
  | cons a l ih =>
    simp only [List.map_cons, List.cons_append]
    show relStr cv a :: tocEntryTexts
        (l.map (fun p => Block.par (relStr cv p) tocStyle true)
          ++ [Block.pageBreak])
      = relStr cv a :: l.map (relStr cv)
    rw [ih]

theorem heading1Texts_append (bs cs : List Block) :
    heading1Texts (bs ++ cs) = heading1Texts bs ++ heading1Texts cs :=
  List.filterMap_append bs cs _

theorem heading1Texts_addFile (cv : CodebaseConverter) (tree : List Entry)
    (p : List String) :
    heading1Texts (add_file_content cv tree p) = [relStr cv p] := by
  unfold add_file_content
  cases hfp : cv.include_file_paths <;>
    cases hrd : readFile tree (p.drop cv.codebase_path.length) <;>
      simp [hfp, hrd, heading1Texts, List.filterMap_append]

theorem heading1Texts_bodyBlocks (cv : CodebaseConverter) (tree : List Entry) :
    ∀ files, heading1Texts (bodyBlocks cv tree files) = files.map (relStr cv)
  | [] => rfl
  | [p] => by
    simp only [bodyBlocks]
    rw [heading1Texts_addFile]
    rfl
  | p :: q :: fs => by
    simp only [bodyBlocks]
    rw [heading1Texts_append, heading1Texts_addFile]
    have hpb : heading1Texts (Block.pageBreak :: bodyBlocks cv tree (q :: fs))
        = heading1Texts (bodyBlocks cv tree (q :: fs)) := rfl
    rw [hpb, heading1Texts_bodyBlocks cv tree (q :: fs)]
    rfl

/-- C8: with the table of contents enabled (and discovery nonempty, so a
document is produced at all), the saved document is the title block, the
TOC, then the body, and the sequence of relative paths the TOC lists is
identical — same entries, same order — to the sequence of per-file
section headings of the body. -/
theorem toc_matches_body_order (cv : CodebaseConverter) (tree : List Entry)
    (htoc : cv.include_toc = true) (hne : get_files cv tree ≠ []) :
    convert cv tree = Except.ok (cv.output_path,
      titleBlocks cv (get_files cv tree) ++ tocBlocks cv (get_files cv tree)
        ++ bodyBlocks cv tree (get_files cv tree)) ∧
    tocEntryTexts (tocBlocks cv (get_files cv tree)) =
      heading1Texts (bodyBlocks cv tree (get_files cv tree)) := by
  constructor
  · simp [convert, List.isEmpty_iff, hne, docBlocks, htoc]
  · rw [tocEntryTexts_tocBlocks, heading1Texts_bodyBlocks]

/-- Witness for C8 at a concrete tree. -/
theorem toc_matches_body_order_witness :
    sampleCv.include_toc = true ∧ get_files sampleCv sampleTree ≠ [] ∧
    (convert sampleCv sampleTree = Except.ok (sampleCv.output_path,
      titleBlocks sampleCv (get_files sampleCv sampleTree)
        ++ tocBlocks sampleCv (get_files sampleCv sampleTree)
        ++ bodyBlocks sampleCv sampleTree (get_files sampleCv sampleTree)) ∧
     tocEntryTexts (tocBlocks sampleCv (get_files sampleCv sampleTree)) =
       heading1Texts (bodyBlocks sampleCv sampleTree
         (get_files sampleCv sampleTree))) :=
  ⟨rfl, by decide, toc_matches_body_order sampleCv sampleTree rfl (by decide)⟩

/-! ## Localisation of a read failure -/

theorem addFile_mem_body (cv : CodebaseConverter) (tree : List Entry) :
    ∀ (files : List (List String)) (q : List String), q ∈ files →
      ∀ b ∈ add_file_content cv tree q, b ∈ bodyBlocks cv tree files
  | [], q, hq, _, _ => by simp at hq
  | [p], q, hq, b, hb => by
    rw [List.mem_singleton] at hq
    subst hq
    simpa [bodyBlocks] using hb
  | p :: p' :: fs, q, hq, b, hb => by
    simp only [bodyBlocks]
    rcases List.mem_cons.mp hq with h | h
    · subst h
      exact List.mem_append_left _ hb
    · have hrec := addFile_mem_body cv tree (p' :: fs) q h b hb
      exact List.mem_append_right _ (List.mem_cons_of_mem _ hrec)

theorem body_mem_doc (cv : CodebaseConverter) (tree : List Entry)
    (files : List (List String)) (b : Block)
    (hb : b ∈ bodyBlocks cv tree files) : b ∈ docBlocks cv tree files := by
  unfold docBlocks
  exact List.mem_append_right _ hb

/-- C4: a failing read of one discovered file is non-fatal: `convert`
still succeeds and returns the output path with the assembled document;
that document contains the red `Error reading file:` marker carrying the
failure reason in place of that file's body; and every discovered file —
the failing one and the remaining ones alike — still gets its section
heading, i.e. processing continued. -/
theorem read_error_nonfatal (cv : CodebaseConverter) (tree : List Entry)
    (p : List String) (e : String)
    (hp : p ∈ get_files cv tree)
    (he : readFile tree (p.drop cv.codebase_path.length) = Except.error e) :
    convert cv tree
      = Except.ok (cv.output_path, docBlocks cv tree (get_files cv tree)) ∧
    Block.par ("Error reading file: " ++ e) errorStyle false
      ∈ docBlocks cv tree (get_files cv tree) ∧
    ∀ q ∈ get_files cv tree,
      Block.heading 1 (relStr cv q) false ∈ docBlocks cv tree (get_files cv tree) := by
  have hne : get_files cv tree ≠ [] := by
    intro h0
    rw [h0] at hp
    simp at hp
  refine ⟨by simp [convert, List.isEmpty_iff, hne], ?_, ?_⟩
  · apply body_mem_doc
    apply addFile_mem_body cv tree _ p hp
    simp [add_file_content, he]
  · intro q hq
    apply body_mem_doc
    apply addFile_mem_body cv tree _ q hq
    simp [add_file_content]

/-- A tree holding one unreadable and one readable file. -/
def errTree : List Entry :=
  [Entry.file "bad.py" (.error "Permission denied"),
   Entry.file "ok.py" (.ok "x=1")]

/-- Witness for C4: simulated permission denial on one of two files. -/
theorem read_error_nonfatal_witness :
    ["home", "proj", "bad.py"] ∈ get_files sampleCv errTree ∧
    readFile errTree
      (["home", "proj", "bad.py"].drop sampleCv.codebase_path.length)
      = Except.error "Permission denied" ∧
    (convert sampleCv errTree = Except.ok (sampleCv.output_path,
        docBlocks sampleCv errTree (get_files sampleCv errTree)) ∧
     Block.par ("Error reading file: " ++ "Permission denied") errorStyle false
       ∈ docBlocks sampleCv errTree (get_files sampleCv errTree) ∧
     ∀ q ∈ get_files sampleCv errTree,
       Block.heading 1 (relStr sampleCv q) false
         ∈ docBlocks sampleCv errTree (get_files sampleCv errTree)) :=
  ⟨by decide, rfl,
   read_error_nonfatal sampleCv errTree ["home", "proj", "bad.py"]
     "Permission denied" (by decide) rfl⟩

/-! ## Determinism: the document does not depend on enumeration order -/

/-- Reflexivity of `RF`, by structural recursion over the forest. -/
theorem RF_refl : ∀ es : List Entry, RF es es
  | [] => RF.nil
  | .file n d :: l => RF.consFile n d (RF_refl l)
  | .dir n cs :: l => RF.consDir n (RF_refl cs) (RF_refl l)

theorem RF_names {es es' : List Entry} (h : RF es es') :
    List.Perm (es.map entryName) (es'.map entryName) := by
  induction h with
  | nil => exact .refl _
  | consFile n d h ih => exact ih.cons _
  | consDir n hcs hl ihcs ihl => exact ihl.cons _
  | swap a b l => exact List.Perm.swap _ _ _
  | trans h₁ h₂ ih₁ ih₂ => exact ih₁.trans ih₂

theorem RF_wf {es es' : List Entry} (h : RF es es') :
    wfF es = true → wfF es' = true := by
  induction h with
  | nil => exact fun hw => hw
  | consFile n d h ih =>
    intro hw
    unfold wfF at hw ⊢
    simp only [Bool.and_eq_true, Bool.not_eq_true',
      decide_eq_false_iff_not] at hw ⊢
    obtain ⟨⟨h1, h2⟩, h3⟩ := hw
    exact ⟨⟨h1, fun hx => h2 ((RF_names h).mem_iff.mpr hx)⟩, ih h3⟩
  | consDir n hcs h ihcs ih =>
    intro hw
    unfold wfF at hw ⊢
    simp only [Bool.and_eq_true, Bool.not_eq_true',
      decide_eq_false_iff_not] at hw ⊢
    obtain ⟨⟨h1, h2⟩, h3⟩ := hw
    refine ⟨⟨?_, fun hx => h2 ((RF_names h).mem_iff.mpr hx)⟩, ih h3⟩
    unfold wfE at h1 ⊢
    exact ihcs h1
  | swap a b l =>
    intro hw
    simp only [wfF, List.map_cons, List.mem_cons, Bool.and_eq_true,
      Bool.not_eq_true', decide_eq_false_iff_not] at hw ⊢
    obtain ⟨⟨ha, han⟩, ⟨hb, hbn⟩, hl⟩ := hw
    have hab : entryName a ≠ entryName b := fun hx => han (Or.inl hx)
    exact ⟨⟨hb, fun hx => hx.elim (fun hy => hab hy.symm) hbn⟩,
      ⟨ha, fun hx => han (Or.inr hx)⟩, hl⟩
  | trans h₁ h₂ ih₁ ih₂ => exact fun hw => ih₂ (ih₁ hw)

theorem RF_walk (cv : CodebaseConverter) {es es' : List Entry}
    (h : RF es es') :
    ∀ path, List.Perm (walkF cv path es) (walkF cv path es') := by
  induction h with
  | nil => exact fun _ => .refl _
  | consFile n d h ih =>
    intro path
    simp only [walkF]
    exact List.Perm.append (.refl _) (ih path)
  | consDir n hcs h ihcs ih =>
    intro path
    simp only [walkF]
    refine List.Perm.append ?_ (ih path)
    simp only [walkE, entryName]
    by_cases hn : n ∈ cv.ignore_dirs
    · simp [hn]
    · simp only [if_neg hn]
      exact ihcs (path ++ [n])
  | swap a b l =>
    intro path
    simp only [walkF]
    exact List.perm_append_comm_assoc _ _ _
  | trans h₁ h₂ ih₁ ih₂ => exact fun path => (ih₁ path).trans (ih₂ path)

theorem findEntry_wf :
    ∀ (l : List Entry), wfF l = true → ∀ (n : String) (e : Entry),
      findEntry n l = some e → wfE e = true
  | [], _, n, e, h => by simp [findEntry] at h
  | x :: l, hw, n, e, h => by
    unfold wfF at hw
    simp only [Bool.and_eq_true] at hw
    unfold findEntry at h
    split at h
    · have hxe := Option.some.inj h
      subst hxe
      exact hw.1.1
    · exact findEntry_wf l hw.2 n e h

/-- Relation between the name-resolution results in two reordered
directories: both fail, or both find the same file, or both find a
directory of the same name whose (well-formed) children are reordered. -/
inductive OptR : Option Entry → Option Entry → Prop
  | none : OptR none none
  | file (n : String) (d : FileData) :
      OptR (some (.file n d)) (some (.file n d))
  | dir (n : String) {cs cs' : List Entry} : RF cs cs' → wfF cs = true →
      OptR (some (.dir n cs)) (some (.dir n cs'))

theorem OptR_refl (e : Entry) (hw : wfE e = true) : OptR (some e) (some e) := by
  cases e with
  | file n d => exact OptR.file n d
  | dir n cs => exact OptR.dir n (RF_refl cs) (by simpa [wfE] using hw)

theorem OptR_trans {o₁ o₂ o₃ : Option Entry} (h₁ : OptR o₁ o₂)
    (h₂ : OptR o₂ o₃) : OptR o₁ o₃ := by
  cases h₁ with
  | none => exact h₂
  | file n d =>
    cases h₂ with
    | file _ _ => exact OptR.file n d
  | dir n hcs hwf =>
    cases h₂ with
    | dir _ hcs₂ hwf₂ => exact OptR.dir n (hcs.trans hcs₂) hwf

theorem RF_find {es es' : List Entry} (h : RF es es') :
    wfF es = true → ∀ n, OptR (findEntry n es) (findEntry n es') := by
  induction h with
  | nil => exact fun _ _ => OptR.none
  | consFile n₀ d h ih =>
    intro hw n
    unfold wfF at hw
    simp only [Bool.and_eq_true] at hw
    unfold findEntry
    simp only [entryName]
    by_cases hn : n₀ = n
    · simp only [if_pos hn]
      exact OptR.file n₀ d
    · simp only [if_neg hn]
      exact ih hw.2 n
  | consDir n₀ hcs h ihcs ih =>
    intro hw n
    unfold wfF at hw
    simp only [Bool.and_eq_true] at hw
    unfold findEntry
    simp only [entryName]
    by_cases hn : n₀ = n
    · simp only [if_pos hn]
      exact OptR.dir n₀ hcs (by simpa [wfE] using hw.1.1)
    · simp only [if_neg hn]
      exact ih hw.2 n
  | swap a b l =>
    intro hw n
    simp only [wfF, List.map_cons, List.mem_cons, Bool.and_eq_true,
      Bool.not_eq_true', decide_eq_false_iff_not] at hw
    obtain ⟨⟨ha, han⟩, ⟨hb, hbn⟩, hl⟩ := hw
    have hab : entryName a ≠ entryName b := fun hx => han (Or.inl hx)
    by_cases hna : entryName a = n
    · have hnb : ¬ entryName b = n := fun hx => hab (hna.trans hx.symm)
      simp only [findEntry, if_pos hna, if_neg hnb]
      exact OptR_refl a ha
    · by_cases hnb : entryName b = n
      · simp only [findEntry, if_neg hna, if_pos hnb]
        exact OptR_refl b hb
      · simp only [findEntry, if_neg hna, if_neg hnb]
        cases hfind : findEntry n l with
        | none => exact OptR.none
        | some e => exact OptR_refl e (findEntry_wf l hl n e hfind)
  | trans h₁ h₂ ih₁ ih₂ =>
    intro hw n
    exact OptR_trans (ih₁ hw n) (ih₂ (RF_wf h₁ hw) n)

theorem read_agree :
    ∀ (p : List String) {es es' : List Entry}, RF es es' →
      wfF es = true → readFile es p = readFile es' p
  | [], _, _, _, _ => rfl
  | n :: rest, es, es', h, hw => by
    unfold readFile
    have hfind := RF_find h hw n
    cases hfe : findEntry n es with
    | none =>
      cases hfe' : findEntry n es' with
      | none => rfl
      | some e' =>
        rw [hfe, hfe'] at hfind
        cases hfind
    | some e =>
      cases hfe' : findEntry n es' with
      | none =>
        rw [hfe, hfe'] at hfind
        cases hfind
      | some e' =>
        rw [hfe, hfe'] at hfind
        cases hfind with
        | file n₀ d => rfl
        | dir n₀ hcs hwcs =>
          cases rest with
          | nil => rfl
          | cons r rs => exact read_agree (r :: rs) hcs hwcs

theorem get_files_eq {t₁ t₂ : List Entry} (cv : CodebaseConverter)
    (h : RF t₁ t₂) : get_files cv t₁ = get_files cv t₂ := by
  unfold get_files
  have hperm : List.Perm (walkF cv cv.codebase_path t₁)
      (walkF cv cv.codebase_path t₂) := RF_walk cv h _
  have h₁ := @List.sorted_insertionSort _ pathLeP pathLeP.decRel
    ⟨pathLeP_total⟩ ⟨pathLeP_trans⟩ (walkF cv cv.codebase_path t₁)
  have h₂ := @List.sorted_insertionSort _ pathLeP pathLeP.decRel
    ⟨pathLeP_total⟩ ⟨pathLeP_trans⟩ (walkF cv cv.codebase_path t₂)
  refine @List.eq_of_perm_of_sorted _ pathLeP ⟨pathLeP_antisymm⟩ _ _ ?_ h₁ h₂
  exact ((List.perm_insertionSort pathLeP _).trans hperm).trans
    (List.perm_insertionSort pathLeP _).symm

theorem bodyBlocks_congr {t₁ t₂ : List Entry} (cv : CodebaseConverter)
    (h : ∀ p, readFile t₁ p = readFile t₂ p) :
    ∀ files, bodyBlocks cv t₁ files = bodyBlocks cv t₂ files
  | [] => rfl
  | [p] => by
    simp only [bodyBlocks]
    unfold add_file_content
    rw [h]
  | p :: q :: fs => by
    simp only [bodyBlocks]
    rw [bodyBlocks_congr cv h (q :: fs)]
    unfold add_file_content
    rw [h]

/-- C9: conversion is deterministic in content.  Two runs of `convert`
over the same configuration and the same (well-formed) directory tree —
`RF t₁ t₂` says the trees hold the same entries, with each directory
possibly enumerated in a different order, which is the only run-to-run
variation `os.walk` exposes — produce the very same result: in particular
documents with the same section count, order, and text content. -/
theorem convert_deterministic (cv : CodebaseConverter) {t₁ t₂ : List Entry}
    (h : RF t₁ t₂) (hw : wfF t₁ = true) :
    convert cv t₁ = convert cv t₂ := by
  have hg := get_files_eq cv h
  have hr : ∀ p, readFile t₁ p = readFile t₂ p :=
    fun p => read_agree p h hw
  have hd : ∀ files, docBlocks cv t₁ files = docBlocks cv t₂ files := by
    intro files
    unfold docBlocks
    rw [bodyBlocks_congr cv hr]
  unfold convert
  simp only [hg, hd]

/-- A two-file tree, and the same tree enumerated the other way round. -/
def treeA : List Entry :=
  [Entry.file "a.py" (.ok "x=1"), Entry.file "b.py" (.ok "y=2")]

/-- The entries of `treeA`, transposed. -/
def treeB : List Entry :=
  [Entry.file "b.py" (.ok "y=2"), Entry.file "a.py" (.ok "x=1")]

/-- Witness for C9: converting the same two files discovered in either
order yields identical results. -/
theorem convert_deterministic_witness :
    RF treeA treeB ∧ wfF treeA = true ∧
    convert sampleCv treeA = convert sampleCv treeB :=
  ⟨RF.swap _ _ _, by decide,
   convert_deterministic sampleCv (RF.swap _ _ _) (by decide)⟩

end CodebaseToDocx
